import Mathlib

/-!
Verification of the finite-field arithmetic engine in `src/python-impl/fields.py`
(prime field `Fq`, generic extension engine `FieldExtBase`, quadratic extension `Fq2`).

The Python classes are embedded shallowly:

* `Fq(int)` becomes a structure carrying the modulus attribute `Q` and the
  underlying Python integer `val`; `Fq(Q, x)` stores `x % Q`, and Python's `%`
  on a positive modulus agrees with `Int.emod`, which is what `%` denotes below.
* `FieldExtBase(tuple)` becomes a structure carrying the modulus `Q`, the class
  attribute `embedding`, the `root` attribute, and the coefficient tuple
  (a list of `Fq`, which is the shape of every element the source can build:
  the only concrete extension class in the source is `Fq2`, whose basefield
  is `Fq`).
* Fallible constructor paths (uncaught exceptions) are modelled with `Option`.
-/

/-- Element of class `Fq(int)` (fields.py line 11): `val` is the underlying
Python int, `Q` is the modulus attribute set by `__new__`. -/
structure Fq where
  Q : Int
  val : Int
deriving DecidableEq, Repr

/-- `Fq.__new__` (line 18): `super().__new__(cls, x % Q)` with `ret.Q = Q`. -/
def Fq.new (Q x : Int) : Fq := ⟨Q, x % Q⟩

/-- `Fq.__neg__` (line 23): `Fq(self.Q, super().__neg__())`. -/
def Fq.neg (a : Fq) : Fq := Fq.new a.Q (-a.val)

/-- `Fq.__add__` (line 26) applied to another `Fq`: the `isinstance(other, int)`
guard passes because `Fq` subclasses `int`, so the result is
`Fq(self.Q, super().__add__(other))` — the left operand's modulus, with no
check of `other.Q`. -/
def Fq.add (a b : Fq) : Fq := Fq.new a.Q (a.val + b.val)

/-- `Fq.__sub__` (line 36) applied to another `Fq` (same remark as for add). -/
def Fq.sub (a b : Fq) : Fq := Fq.new a.Q (a.val - b.val)

/-- `Fq.__mul__` (line 46) applied to another `Fq` (same remark as for add). -/
def Fq.mul (a b : Fq) : Fq := Fq.new a.Q (a.val * b.val)

/-- `Fq.__eq__` (line 54) when `other` is a plain int (not an `Fq`): falls into
`super().__eq__(other)`, i.e. comparison of the underlying integer with `other`;
the modulus attribute is not consulted on this branch. -/
def Fq.eqInt (s : Fq) (n : Int) : Bool := s.val == n

/-- `Fq.__eq__` (line 54) when `other` is also an `Fq`:
`super().__eq__(other) and self.Q == other.Q`. -/
def Fq.beq (a b : Fq) : Bool := a.val == b.val && a.Q == b.Q

/-- `Fq.__pow__` (line 67) for a nonnegative integer exponent; Python's
`other // 2` on a nonnegative int is `Nat` division. -/
def Fq.pow (s : Fq) (e : Nat) : Fq :=
  if e = 0 then Fq.new s.Q 1
  else if e = 1 then s
  else if e % 2 = 0 then Fq.pow (Fq.mul s s) (e / 2)
  else Fq.mul (Fq.pow (Fq.mul s s) (e / 2)) s
termination_by e
decreasing_by
  all_goals omega

/-- The `while a != 0` loop of `Fq.__invert__` (lines 80-86), returning the
final `(b, x0, y0)`.  The loop is entered with `a = int(self.Q)` and
`b = int(self)`; for a positive modulus both stay nonnegative throughout, so
they are carried as `Nat` and Python's floor division `b // a` is `Nat`
division.  `q, b, a = b // a, a, b % a` together with
`x0, x1 = x1, x0 - q * x1` and `y0, y1 = y1, y0 - q * y1` becomes the
recursive call. -/
def xgcdLoop (a b : Nat) (x0 x1 y0 y1 : Int) : Nat × Int × Int :=
  if a = 0 then (b, x0, y0)
  else
    xgcdLoop (b % a) a x1 (x0 - ((b / a : Nat) : Int) * x1)
      y1 (y0 - ((b / a : Nat) : Int) * y1)
termination_by a
decreasing_by
  exact Nat.mod_lt _ (Nat.pos_of_ne_zero (by assumption))

/-- `Fq.__invert__` (line 76): run the extended-Euclid loop on
`(int(self.Q), int(self))` and return `Fq(self.Q, x0)`. -/
def Fq.invert (s : Fq) : Fq :=
  Fq.new s.Q (xgcdLoop s.Q.toNat s.val.toNat 1 0 0 1).2.1

/-- `Fq.__floordiv__` / `__truediv__` (line 89) applied to another `Fq`
(no lifting needed): `self * ~other`. -/
def Fq.div (a b : Fq) : Fq := Fq.mul a (Fq.invert b)

/-- `Fq.zero` classmethod (line 103). -/
def Fq.zero (Q : Int) : Fq := Fq.new Q 0

/-- `Fq.one` classmethod (line 107). -/
def Fq.one (Q : Int) : Fq := Fq.new Q 1

/-- Element of class `FieldExtBase(tuple)` (line 116): modulus attribute `Q`,
class attribute `embedding`, the `root` attribute, and the coefficient tuple.
The only concrete extension class in the source is `Fq2`
(`embedding = 2`, `basefield = Fq`), so coefficients are `Fq` values. -/
structure FieldExtBase where
  Q : Int
  embedding : Nat
  root : Fq
  coeffs : List Fq
deriving DecidableEq, Repr

/-- `FieldExtBase.__add__` (line 157) when `other` is an instance of the same
class: `super().__new__(cls, (a + b for a, b in zip(self, other)))` with
`ret.Q = self.Q` and `ret.root = self.root`; each component addition is
`Fq.__add__`, which uses the left component's modulus. -/
def FieldExtBase.addSame (s t : FieldExtBase) : FieldExtBase :=
  ⟨s.Q, s.embedding, s.root, List.zipWith Fq.add s.coeffs t.coeffs⟩

/-- `buf[(i + j) % self.embedding] += term` (lines 198-201): read the buffer
entry, `Fq.__add__` the term to it, and write it back.  The index is always in
range for the elements the source builds; the default only makes the model
total. -/
def bufAdd (buf : List Fq) (idx : Nat) (t : Fq) : List Fq :=
  buf.set idx (Fq.add (buf.getD idx (Fq.zero 0)) t)

/-- The body of the inner `for j, y in enumerate(other)` loop of
`FieldExtBase.__mul__` (lines 195-201), for the `cls.extension ==
other.extension` case: skip when `x` or `y` is falsy (a zero int), otherwise
accumulate `x * y * self.root` when `i + j >= self.embedding` and `x * y`
otherwise, into `buf[(i + j) % self.embedding]`. -/
def mulInnerStep (emb : Nat) (root x : Fq) (i : Nat) (b2 : List Fq)
    (jy : Nat × Fq) : List Fq :=
  if x.val ≠ 0 ∧ jy.2.val ≠ 0 then
    if emb ≤ i + jy.1 then
      bufAdd b2 ((i + jy.1) % emb) (Fq.mul (Fq.mul x jy.2) root)
    else
      bufAdd b2 ((i + jy.1) % emb) (Fq.mul x jy.2)
  else b2

/-- The body of the outer `for i, x in enumerate(self)` loop of
`FieldExtBase.__mul__` (line 193): one full pass of the inner loop. -/
def mulOuterStep (emb : Nat) (root : Fq) (ys : List (Nat × Fq))
    (b1 : List Fq) (ix : Nat × Fq) : List Fq :=
  ys.foldl (mulInnerStep emb root ix.2 ix.1) b1

/-- `FieldExtBase.__mul__` (line 181) in the `cls.extension == other.extension`
case: `buf = [cls.basefield.zero(self.Q) for _ in self]`, the double loop, and
`ret = super().__new__(cls, buf)` with `ret.Q = self.Q`,
`ret.root = self.root`. -/
def FieldExtBase.mulEq (s t : FieldExtBase) : FieldExtBase :=
  ⟨s.Q, s.embedding, s.root,
    s.coeffs.enum.foldl (mulOuterStep s.embedding s.root t.coeffs.enum)
      (List.replicate s.coeffs.length (Fq.zero s.Q))⟩

/-- Python tuple `<` on tuples of `Fq`: scan for the first index where the
components are not `==` (for `Fq` components `==` is value equality plus
modulus equality), and compare those components with int `<`; a strict prefix
is smaller. -/
def pyFqListLt : List Fq → List Fq → Bool
  | _, [] => false
  | [], _ :: _ => true
  | x :: xs, y :: ys =>
      if x.val = y.val ∧ x.Q = y.Q then pyFqListLt xs ys
      else decide (x.val < y.val)

/-- `FieldExtBase.__lt__` (line 231): `self[::-1].__lt__(other[::-1])` —
tuple comparison of the reversed coefficient tuples. -/
def FieldExtBase.lt (s t : FieldExtBase) : Bool :=
  pyFqListLt s.coeffs.reverse t.coeffs.reverse

/-- `FieldExtBase.__eq__` (line 218) when `other` is an instance of the same
class: `super().__eq__(other) and self.Q == other.Q` — tuple equality
(same length, componentwise `Fq.__eq__`) plus modulus equality. -/
def FieldExtBase.beq (s t : FieldExtBase) : Bool :=
  s.coeffs.length == t.coeffs.length &&
    (List.zipWith Fq.beq s.coeffs t.coeffs).all (fun c => c) &&
    s.Q == t.Q

/-- `Fq2(Q, a, b)` on two raw integers (class `Fq2`, line 295):
`FieldExtBase.__new__` lifts the arguments to `[Fq(Q, a), Fq(Q, b)]` and
`Fq2.__init__` sets `root = Fq(Q, -1)`; the class attribute `embedding` is 2. -/
def Fq2.ofInts (Q a b : Int) : FieldExtBase :=
  ⟨Q, 2, Fq.new Q (-1), [Fq.new Q a, Fq.new Q b]⟩

/-- `Fq2.one(Q)`: `FieldExtBase.one` (line 273) via `from_fq` (line 277) puts
`Fq(Q, 1)` at index 0 and `Fq(Q, 0)` at index 1 and sets `root = Fq(Q, -1)`. -/
def Fq2.one (Q : Int) : FieldExtBase :=
  ⟨Q, 2, Fq.new Q (-1), [Fq.new Q 1, Fq.new Q 0]⟩

/-- `Fq2.__invert__` (line 305): `a, b = self` (which raises unless the tuple
has exactly two components, hence `Option`); `factor = ~(a * a + b * b)`;
`Fq2(self.Q, a * factor, -b * factor)`.  The constructor receives two `Fq`
arguments, so it keeps them as they are and sets `root = Fq(self.Q, -1)`. -/
def Fq2.invert (s : FieldExtBase) : Option FieldExtBase :=
  match s.coeffs with
  | [a, b] =>
      let factor := Fq.invert (Fq.add (Fq.mul a a) (Fq.mul b b))
      some ⟨s.Q, 2, Fq.new s.Q (-1), [Fq.mul a factor, Fq.mul (Fq.neg b) factor]⟩
  | _ => none

/-- A positional argument passed to `FieldExtBase.__new__`: either a plain
Python int or an `Fq` value (the argument shapes that occur for the one
concrete class `Fq2`, whose basefield is `Fq`). -/
inductive PyArg where
  | ofInt : Int → PyArg
  | ofFq : Fq → PyArg
deriving DecidableEq, Repr

/-- Whether `arg.extension` succeeds: plain ints have no `extension`
attribute (`AttributeError`); `Fq` has class attribute `extension = 1`. -/
def PyArg.hasExtAttr : PyArg → Bool
  | .ofInt _ => false
  | .ofFq _ => true

/-- `Fq(Q, a)` applied to a constructor argument (line 137): for an `Fq`
argument the underlying int is re-reduced with the new modulus. -/
def PyArg.lift (Q : Int) : PyArg → Fq
  | .ofInt n => Fq.new Q n
  | .ofFq g => Fq.new Q g.val

/-- `FieldExtBase.__new__` (lines 128-148) for `cls = Fq2` (`basefield = Fq`,
`embedding = 2`), returning the coefficient tuple of the constructed element
(`none` models an uncaught exception):

* fewer than two arguments: `args[0].extension` / `args[1].extension` raises
  `IndexError` (uncaught), or the caught `AttributeError` path raises
  `Exception("Invalid number of arguments")` because `len(args) != 2`;
* first two arguments both field-shaped: no exception is raised, so
  `arg_extension = 1`, the `arg_extension != 1` branch with its
  `len(args) != cls.embedding` check is skipped, the final
  `isinstance(arg, int)` assert passes for ints and `Fq` alike, and the
  argument tuple is used as the element unchanged;
* otherwise (`AttributeError` from an int among the first two): the raw-scalar
  path requires `len(args) == 2` (the literal 2 of line 134) and lifts every
  argument with `Fq(Q, a)`. -/
def Fq2.newArgs (Q : Int) (args : List PyArg) : Option (List PyArg) :=
  match args with
  | a0 :: a1 :: _ =>
      if a0.hasExtAttr && a1.hasExtAttr then
        some args
      else
        if args.length = 2 then some (args.map (fun a => PyArg.ofFq (a.lift Q)))
        else none
  | _ => none

/-- The canonical-representative invariant of a prime-field element:
positive modulus and value in `[0, modulus)`. -/
def Fq.canonical (a : Fq) : Prop := 0 < a.Q ∧ 0 ≤ a.val ∧ a.val < a.Q

/-! ### Generic modular-arithmetic helpers -/

lemma emod_add_left (u t n : Int) : (u % n + t) % n = (u + t) % n := by
  conv_lhs => rw [Int.add_emod]
  conv_rhs => rw [Int.add_emod]
  rw [Int.emod_emod_of_dvd _ dvd_rfl]

lemma emod_add_right (u t n : Int) : (u + t % n) % n = (u + t) % n := by
  conv_lhs => rw [Int.add_emod]
  conv_rhs => rw [Int.add_emod]
  rw [Int.emod_emod_of_dvd _ dvd_rfl]

lemma emod_mul_left (u t n : Int) : (u % n * t) % n = (u * t) % n := by
  conv_lhs => rw [Int.mul_emod]
  conv_rhs => rw [Int.mul_emod]
  rw [Int.emod_emod_of_dvd _ dvd_rfl]

lemma emod_mul_right (u t n : Int) : (u * (t % n)) % n = (u * t) % n := by
  conv_lhs => rw [Int.mul_emod]
  conv_rhs => rw [Int.mul_emod]
  rw [Int.emod_emod_of_dvd _ dvd_rfl]

lemma emod_add_congr (u t t' n : Int) (h : t % n = t' % n) :
    (u + t) % n = (u + t') % n := by
  rw [Int.add_emod, h, ← Int.add_emod]

/-! ### Correctness of the extended-Euclid loop -/

/-- The first component of the loop state at exit is `Nat.gcd a b`. -/
lemma xgcdLoop_gcd : ∀ (a b : Nat) (x0 x1 y0 y1 : Int),
    (xgcdLoop a b x0 x1 y0 y1).1 = Nat.gcd a b := by
  intro a
  induction a using Nat.strong_induction_on with
  | _ a ih =>
    intro b x0 x1 y0 y1
    rw [xgcdLoop]
    by_cases h : a = 0
    · subst h; simp
    · rw [if_neg h, ih (b % a) (Nat.mod_lt _ (Nat.pos_of_ne_zero h)),
        ← Nat.gcd_rec]

/-- Bezout invariant of the loop: if the seed coefficients express `b` and `a`
as combinations of `B` and `A`, the exit coefficients express the gcd. -/
lemma xgcdLoop_bezout : ∀ (a b : Nat) (x0 x1 y0 y1 : Int) (A B : Int),
    x0 * B + y0 * A = (b : Int) → x1 * B + y1 * A = (a : Int) →
    ((xgcdLoop a b x0 x1 y0 y1).1 : Int)
      = (xgcdLoop a b x0 x1 y0 y1).2.1 * B + (xgcdLoop a b x0 x1 y0 y1).2.2 * A := by
  intro a
  induction a using Nat.strong_induction_on with
  | _ a ih =>
    intro b x0 x1 y0 y1 A B h0 h1
    rw [xgcdLoop]
    by_cases h : a = 0
    · subst h; simpa using h0.symm
    · rw [if_neg h]
      have hq : (a : Int) * ((b / a : Nat) : Int) + ((b % a : Nat) : Int) = (b : Int) := by
        push_cast
        exact_mod_cast congrArg (Nat.cast : Nat → Int) (Nat.div_add_mod b a)
      refine ih (b % a) (Nat.mod_lt _ (Nat.pos_of_ne_zero h)) a x1 _ y1 _ A B h1 ?_
      linear_combination h0 - ((b / a : Nat) : Int) * h1 - hq

/-! ### The coefficient formula computed by `FieldExtBase.__mul__` -/

/-- The value accumulated for the index pair whose sum is `ij`: the plain
product, additionally multiplied by the root value when `ij ≥ embedding`. -/
def stepTerm (emb : Nat) (rv xv yv : Int) (ij : Nat) : Int :=
  if emb ≤ ij then xv * yv * rv else xv * yv

/-- The `(i, j)` term of the schoolbook convolution, read off the coefficient
lists. -/
def mulTerm (emb : Nat) (rv : Int) (xs ys : List Fq) (i j : Nat) : Int :=
  stepTerm emb rv (xs.getD i (Fq.zero 0)).val (ys.getD j (Fq.zero 0)).val (i + j)

/-- Coefficient `k` of the product, as an integer before canonical
reduction: the sum of all `(i, j)` terms with `(i + j) % emb = k`. -/
def mulCoeff (emb : Nat) (rv : Int) (xs ys : List Fq) (k : Nat) : Int :=
  ∑ i ∈ Finset.range xs.length, ∑ j ∈ Finset.range ys.length,
    if (i + j) % emb = k then mulTerm emb rv xs ys i j else 0

/-- A `+=` into a buffer whose entries are canonically reduced accumulator
values updates exactly one accumulator. -/
lemma bufAdd_range_map (Q : Int) (emb idx : Nat) (F : Nat → Int)
    (h : idx < emb) (t : Fq) :
    bufAdd ((List.range emb).map (fun k => Fq.mk Q (F k % Q))) idx t
      = (List.range emb).map
          (fun k => Fq.mk Q ((F k + if idx = k then t.val else 0) % Q)) := by
  have hread : ((List.range emb).map (fun k => Fq.mk Q (F k % Q))).getD idx (Fq.zero 0)
      = Fq.mk Q (F idx % Q) := by
    rw [List.getD_eq_getElem ((List.range emb).map (fun k => Fq.mk Q (F k % Q)))
      (Fq.zero 0) (by simpa using h)]
    simp
  rw [bufAdd, hread]
  apply List.ext_getElem
  · simp
  · intro n h1 h2
    rw [List.getElem_set]
    simp only [List.getElem_map, List.getElem_range]
    by_cases hin : idx = n
    · subst hin
      rw [if_pos rfl, if_pos rfl]
      show Fq.add (Fq.mk Q (F idx % Q)) t = Fq.mk Q ((F idx + t.val) % Q)
      simp [Fq.add, Fq.new, emod_add_left]
    · rw [if_neg hin, if_neg hin]
      norm_num

/-- One pass of the inner loop over `enumerate(other)` starting at index `j0`:
each accumulator picks up the terms routed to it. -/
lemma innerFold_spec (Q : Int) (emb : Nat) (hemb : 0 < emb) (root x : Fq)
    (hxQ : x.Q = Q) (i : Nat) :
    ∀ (ys : List Fq) (j0 : Nat) (F : Nat → Int),
      List.foldl (mulInnerStep emb root x i)
          ((List.range emb).map (fun k => Fq.mk Q (F k % Q))) (ys.enumFrom j0)
        = (List.range emb).map (fun k => Fq.mk Q
            ((F k + ∑ j ∈ Finset.range ys.length,
                if (i + (j0 + j)) % emb = k then
                  stepTerm emb root.val x.val (ys.getD j (Fq.zero 0)).val (i + (j0 + j))
                else 0) % Q)) := by
  intro ys
  induction ys with
  | nil => intro j0 F; simp
  | cons y ytl ih =>
    intro j0 F
    rw [show (y :: ytl).enumFrom j0 = (j0, y) :: ytl.enumFrom (j0 + 1) by
      simp [List.enumFrom]]
    rw [List.foldl_cons]
    have hstep : mulInnerStep emb root x i
        ((List.range emb).map (fun k => Fq.mk Q (F k % Q))) (j0, y)
        = (List.range emb).map (fun k => Fq.mk Q
            ((F k + if (i + j0) % emb = k then
                stepTerm emb root.val x.val y.val (i + j0) else 0) % Q)) := by
      show (if x.val ≠ 0 ∧ y.val ≠ 0 then
          if emb ≤ i + j0 then
            bufAdd ((List.range emb).map (fun k => Fq.mk Q (F k % Q))) ((i + j0) % emb)
              (Fq.mul (Fq.mul x y) root)
          else
            bufAdd ((List.range emb).map (fun k => Fq.mk Q (F k % Q))) ((i + j0) % emb)
              (Fq.mul x y)
        else ((List.range emb).map (fun k => Fq.mk Q (F k % Q)))) = _
      by_cases hxy : x.val ≠ 0 ∧ y.val ≠ 0
      · rw [if_pos hxy]
        by_cases hge : emb ≤ i + j0
        · rw [if_pos hge, bufAdd_range_map Q emb _ F (Nat.mod_lt _ hemb) _]
          refine List.map_congr_left fun k hk => ?_
          refine congrArg (Fq.mk Q) ?_
          by_cases hkk : (i + j0) % emb = k
          · rw [if_pos hkk, if_pos hkk, stepTerm, if_pos hge]
            refine emod_add_congr _ _ _ _ ?_
            show (Fq.mul (Fq.mul x y) root).val % Q = (x.val * y.val * root.val) % Q
            simp only [Fq.mul, Fq.new, hxQ]
            rw [Int.emod_emod_of_dvd _ dvd_rfl, emod_mul_left]
          · rw [if_neg hkk, if_neg hkk]
        · rw [if_neg hge, bufAdd_range_map Q emb _ F (Nat.mod_lt _ hemb) _]
          refine List.map_congr_left fun k hk => ?_
          refine congrArg (Fq.mk Q) ?_
          by_cases hkk : (i + j0) % emb = k
          · rw [if_pos hkk, if_pos hkk, stepTerm, if_neg hge]
            refine emod_add_congr _ _ _ _ ?_
            show (Fq.mul x y).val % Q = (x.val * y.val) % Q
            simp only [Fq.mul, Fq.new, hxQ]
            rw [Int.emod_emod_of_dvd _ dvd_rfl]
          · rw [if_neg hkk, if_neg hkk]
      · rw [if_neg hxy]
        refine List.map_congr_left fun k hk => ?_
        refine congrArg (Fq.mk Q) ?_
        have hzero : x.val * y.val = 0 := by
          rcases not_and_or.mp hxy with h0 | h0
          · rw [not_not.mp h0, zero_mul]
          · rw [not_not.mp h0, mul_zero]
        have hterm : stepTerm emb root.val x.val y.val (i + j0) = 0 := by
          rw [stepTerm]
          by_cases hge : emb ≤ i + j0
          · rw [if_pos hge, hzero, zero_mul]
          · rw [if_neg hge, hzero]
        rw [hterm]
        simp
    rw [hstep, ih (j0 + 1)]
    refine List.map_congr_left fun k hk => ?_
    refine congrArg (Fq.mk Q) ?_
    refine congrArg (fun z => z % Q) ?_
    rw [List.length_cons, Finset.sum_range_succ']
    have hshift : ∀ j, (if (i + (j0 + 1 + j)) % emb = k then
          stepTerm emb root.val x.val (ytl.getD j (Fq.zero 0)).val (i + (j0 + 1 + j))
        else 0)
        = (if (i + (j0 + (j + 1))) % emb = k then
            stepTerm emb root.val x.val ((y :: ytl).getD (j + 1) (Fq.zero 0)).val
              (i + (j0 + (j + 1)))
          else 0) := by
      intro j
      rw [List.getD_cons_succ, show j0 + (j + 1) = j0 + 1 + j from by omega]
    rw [Finset.sum_congr rfl (fun j _ => hshift j)]
    simp only [List.getD_cons_zero, Nat.add_zero]
    ring

/-- The outer loop over `enumerate(self)` starting at index `i0`:
accumulates the whole convolution. -/
lemma outerFold_spec (Q : Int) (emb : Nat) (hemb : 0 < emb) (root : Fq)
    (ys : List Fq) :
    ∀ (xs : List Fq) (i0 : Nat) (F : Nat → Int), (∀ c ∈ xs, c.Q = Q) →
      List.foldl (mulOuterStep emb root (ys.enum))
          ((List.range emb).map (fun k => Fq.mk Q (F k % Q))) (xs.enumFrom i0)
        = (List.range emb).map (fun k => Fq.mk Q
            ((F k + ∑ idx ∈ Finset.range xs.length, ∑ j ∈ Finset.range ys.length,
                if (i0 + idx + j) % emb = k then
                  stepTerm emb root.val (xs.getD idx (Fq.zero 0)).val
                    (ys.getD j (Fq.zero 0)).val (i0 + idx + j)
                else 0) % Q)) := by
  intro xs
  induction xs with
  | nil => intro i0 F _; simp
  | cons x xtl ih =>
    intro i0 F hQ
    rw [show (x :: xtl).enumFrom i0 = (i0, x) :: xtl.enumFrom (i0 + 1) by
      simp [List.enumFrom]]
    rw [List.foldl_cons]
    have hxQ : x.Q = Q := hQ x (List.mem_cons_self x xtl)
    have hpass : mulOuterStep emb root (ys.enum)
        ((List.range emb).map (fun k => Fq.mk Q (F k % Q))) (i0, x)
        = (List.range emb).map (fun k => Fq.mk Q
            ((F k + ∑ j ∈ Finset.range ys.length,
                if (i0 + j) % emb = k then
                  stepTerm emb root.val x.val (ys.getD j (Fq.zero 0)).val (i0 + j)
                else 0) % Q)) := by
      show List.foldl (mulInnerStep emb root x i0)
          ((List.range emb).map (fun k => Fq.mk Q (F k % Q))) (ys.enumFrom 0) = _
      rw [innerFold_spec Q emb hemb root x hxQ i0 ys 0 F]
      refine List.map_congr_left fun k hk => ?_
      refine congrArg (Fq.mk Q) ?_
      refine congrArg (fun z => z % Q) ?_
      refine congrArg (fun z => F k + z) ?_
      exact Finset.sum_congr rfl fun j _ => by rw [Nat.zero_add]
    rw [hpass, ih (i0 + 1) _ (fun c hc => hQ c (List.mem_cons_of_mem x hc))]
    refine List.map_congr_left fun k hk => ?_
    refine congrArg (Fq.mk Q) ?_
    refine congrArg (fun z => z % Q) ?_
    rw [List.length_cons, Finset.sum_range_succ']
    have hshift : ∀ idx, (∑ j ∈ Finset.range ys.length,
          if (i0 + 1 + idx + j) % emb = k then
            stepTerm emb root.val (xtl.getD idx (Fq.zero 0)).val
              (ys.getD j (Fq.zero 0)).val (i0 + 1 + idx + j)
          else 0)
        = (∑ j ∈ Finset.range ys.length,
            if (i0 + (idx + 1) + j) % emb = k then
              stepTerm emb root.val ((x :: xtl).getD (idx + 1) (Fq.zero 0)).val
                (ys.getD j (Fq.zero 0)).val (i0 + (idx + 1) + j)
            else 0) := by
      intro idx
      rw [List.getD_cons_succ, show i0 + (idx + 1) = i0 + 1 + idx from by omega]
    rw [Finset.sum_congr rfl (fun idx _ => hshift idx)]
    simp only [List.getD_cons_zero, Nat.add_zero]
    ring

/-- The coefficient list computed by the equal-extension branch of
`FieldExtBase.__mul__`: coefficient `k` is the canonical reduction of the sum
of all products `x_i * y_j` with `(i + j) % embedding = k`, each additionally
multiplied by `root` when `i + j ≥ embedding`. -/
lemma mulEq_coeffs (s t : FieldExtBase) (hemb : 0 < s.embedding)
    (hs : s.coeffs.length = s.embedding)
    (hQ : ∀ c ∈ s.coeffs, c.Q = s.Q) :
    (s.mulEq t).coeffs = (List.range s.embedding).map
      (fun k => Fq.new s.Q (mulCoeff s.embedding s.root.val s.coeffs t.coeffs k)) := by
  have hbuf : List.replicate s.coeffs.length (Fq.zero s.Q)
      = (List.range s.embedding).map (fun k => Fq.mk s.Q ((0 : Int) % s.Q)) := by
    rw [hs]
    apply List.ext_getElem
    · simp
    · intro n h1 h2
      simp [Fq.zero, Fq.new]
  show s.coeffs.enum.foldl (mulOuterStep s.embedding s.root t.coeffs.enum)
      (List.replicate s.coeffs.length (Fq.zero s.Q)) = _
  rw [hbuf]
  rw [show s.coeffs.enum = s.coeffs.enumFrom 0 from rfl]
  rw [outerFold_spec s.Q s.embedding hemb s.root t.coeffs s.coeffs 0
    (fun _ => (0 : Int)) hQ]
  refine List.map_congr_left fun k hk => ?_
  show Fq.mk s.Q _ = Fq.new s.Q _
  rw [Fq.new]
  refine congrArg (Fq.mk s.Q) ?_
  refine congrArg (fun z => z % s.Q) ?_
  rw [zero_add, mulCoeff]
  refine Finset.sum_congr rfl fun i _ => Finset.sum_congr rfl fun j _ => ?_
  rw [Nat.zero_add, mulTerm]

/-! ### Consequences of the Euclid loop for `Fq.__invert__` -/

/-- For a canonical element, the loop runs on `(Q, val)` and its exit
coefficient is a Bezout coefficient of `gcd(Q, val)`. -/
lemma invert_bezout (s : Fq) (hQ : 0 < s.Q) (h0 : 0 ≤ s.val)
    (hgcd : Nat.gcd s.Q.toNat s.val.toNat = 1) :
    ∃ x y : Int, (Fq.invert s).val = x % s.Q ∧ x * s.val + y * s.Q = 1 := by
  have hB : ((s.val.toNat : Nat) : Int) = s.val := Int.toNat_of_nonneg h0
  have hA : ((s.Q.toNat : Nat) : Int) = s.Q := Int.toNat_of_nonneg (le_of_lt hQ)
  have hbez := xgcdLoop_bezout s.Q.toNat s.val.toNat 1 0 0 1 s.Q s.val
    (by rw [hB]; ring) (by rw [hA]; ring)
  rw [xgcdLoop_gcd, hgcd] at hbez
  refine ⟨(xgcdLoop s.Q.toNat s.val.toNat 1 0 0 1).2.1,
    (xgcdLoop s.Q.toNat s.val.toNat 1 0 0 1).2.2, rfl, ?_⟩
  exact_mod_cast hbez.symm

/-- A prime modulus is coprime to every nonzero canonical value. -/
lemma gcd_prime_canonical (p : Nat) (hp : p.Prime) (v : Int) (h0 : 0 ≤ v)
    (hlt : v < (p : Int)) (hnz : v ≠ 0) :
    Nat.gcd ((p : Int)).toNat v.toNat = 1 := by
  have h1 : ((p : Int)).toNat = p := by simp
  rw [h1]
  have hv : v.toNat < p := by omega
  have hvnz : v.toNat ≠ 0 := by omega
  exact (Nat.Prime.coprime_iff_not_dvd hp).mpr
    (fun hdvd => absurd (Nat.le_of_dvd (Nat.pos_of_ne_zero hvnz) hdvd) (by omega))

/-- The product of a canonical nonzero element of a prime field with its
computed inverse is `1` modulo the modulus. -/
lemma invert_mul_emod (p : Nat) (hp : p.Prime) (s : Fq) (hQ : s.Q = (p : Int))
    (h0 : 0 ≤ s.val) (hlt : s.val < s.Q) (hnz : s.val ≠ 0) :
    (s.val * (Fq.invert s).val) % s.Q = 1 % s.Q := by
  have hQpos : 0 < s.Q := by rw [hQ]; exact_mod_cast hp.pos
  obtain ⟨x, y, hval, hbez⟩ := invert_bezout s hQpos h0
    (by rw [hQ]; exact gcd_prime_canonical p hp s.val h0 (hQ ▸ hlt) hnz)
  rw [hval, emod_mul_right]
  have hrw : s.val * x = 1 + s.Q * (-y) := by linarith [hbez]
  rw [hrw, Int.add_mul_emod_self_left]

/-- The computed inverse is canonical: value in `[0, modulus)`. -/
lemma invert_canonical_range (s : Fq) (hQpos : 0 < s.Q) :
    0 ≤ (Fq.invert s).val ∧ (Fq.invert s).val < s.Q :=
  ⟨Int.emod_nonneg _ (ne_of_gt hQpos), Int.emod_lt_of_pos _ hQpos⟩

/-- Components determine an `Fq` value. -/
lemma fq_ext (a b : Fq) (h1 : a.Q = b.Q) (h2 : a.val = b.val) : a = b := by
  cases a; cases b; simp_all

/-- Two canonical solutions of `v * x ≡ 1 (mod Q)` coincide. -/
lemma inverse_unique_mod (Q v b w : Int)
    (hb : (v * b) % Q = 1 % Q) (hw : (v * w) % Q = 1 % Q)
    (hb0 : 0 ≤ b) (hblt : b < Q) (hw0 : 0 ≤ w) (hwlt : w < Q) : b = w := by
  have h1 : b % Q = (b * (v * w)) % Q := by
    have := Int.ModEq.mul_left b (Int.ModEq.symm (show Int.ModEq Q (v * w) 1 from hw))
    simpa using this
  have h2 : (b * (v * w)) % Q = (w * (v * b)) % Q := by
    rw [show b * (v * w) = w * (v * b) from by ring]
  have h3 : (w * (v * b)) % Q = w % Q := by
    have := Int.ModEq.mul_left w (show Int.ModEq Q (v * b) 1 from hb)
    simpa using this
  have : b % Q = w % Q := by rw [h1, h2, h3]
  rwa [Int.emod_eq_of_lt hb0 hblt, Int.emod_eq_of_lt hw0 hwlt] at this

/-! ### Claim theorems -/

/-- Claim C3: for every nonzero canonical prime-field element, the extended
Euclid inverse is the unique multiplicative inverse with canonical value in
`[0, modulus)`: the product with it is one, and inverting twice gives the
element back. -/
theorem fq_invert_correct (p : Nat) (hp : p.Prime) (s : Fq) (hQ : s.Q = (p : Int))
    (h0 : 0 ≤ s.val) (hlt : s.val < s.Q) (hnz : s.val ≠ 0) :
    (0 ≤ (Fq.invert s).val ∧ (Fq.invert s).val < s.Q) ∧
    Fq.mul s (Fq.invert s) = Fq.one s.Q ∧
    Fq.invert (Fq.invert s) = s ∧
    ∀ b : Fq, b.Q = s.Q → 0 ≤ b.val → b.val < s.Q → Fq.mul s b = Fq.one s.Q →
      b = Fq.invert s := by
  have hQpos : 0 < s.Q := by rw [hQ]; exact_mod_cast hp.pos
  have hQ2 : (1 : Int) < s.Q := by
    rw [hQ]; exact_mod_cast hp.one_lt
  have hone : (1 : Int) % s.Q = 1 := Int.emod_eq_of_lt (by norm_num) hQ2
  have hrange := invert_canonical_range s hQpos
  have hmul := invert_mul_emod p hp s hQ h0 hlt hnz
  have hmulFq : Fq.mul s (Fq.invert s) = Fq.one s.Q := by
    show Fq.new s.Q (s.val * (Fq.invert s).val) = Fq.new s.Q 1
    rw [Fq.new, Fq.new]
    exact congrArg (Fq.mk s.Q) hmul
  refine ⟨hrange, hmulFq, ?_, ?_⟩
  · -- invert (invert s) = s
    have hwnz : (Fq.invert s).val ≠ 0 := by
      intro hzero
      rw [hzero, mul_zero, hone] at hmul
      have : (0 : Int) % s.Q = 0 := Int.zero_emod _
      omega
    have hmul2 := invert_mul_emod p hp (Fq.invert s) (by rw [← hQ]; rfl)
      hrange.1 hrange.2 hwnz
    have hvv : (Fq.invert (Fq.invert s)).val = s.val := by
      refine inverse_unique_mod s.Q (Fq.invert s).val _ s.val ?_ ?_
        (invert_canonical_range (Fq.invert s) hQpos).1
        (invert_canonical_range (Fq.invert s) hQpos).2 h0 hlt
      · exact hmul2
      · rw [mul_comm]; exact hmul
    exact fq_ext _ _ rfl hvv
  · -- uniqueness
    intro b hbQ hb0 hblt hbmul
    have hbval : (s.val * b.val) % s.Q = 1 % s.Q := by
      have : Fq.new s.Q (s.val * b.val) = Fq.new s.Q 1 := hbmul
      rw [Fq.new, Fq.new] at this
      exact congrArg Fq.val this
    refine fq_ext _ _ (by rw [hbQ]; rfl) ?_
    exact inverse_unique_mod s.Q s.val b.val (Fq.invert s).val hbval hmul
      hb0 hblt hrange.1 hrange.2

/-- Witness for C3 at the spec's concrete vector `5⁻¹ = 8 (mod 13)`. -/
theorem fq_invert_correct_witness :
    Fq.mul (Fq.new 13 5) (Fq.invert (Fq.new 13 5)) = Fq.one 13 :=
  (fq_invert_correct 13 (by norm_num) (Fq.new 13 5) rfl (by decide) (by decide)
    (by decide)).2.1

/-- Claim C1 counterexample: adding a modulus-13 element to a modulus-17
element does not fail — it silently returns the modulus-13 element of value 2
(`(5 + 10) % 13`). -/
theorem fq_cross_modulus_add_returns_value :
    Fq.add (Fq.new 13 5) (Fq.new 17 10) = ⟨13, 2⟩ := by decide

/-- Claim C1 (amended): a binary arithmetic operation between two field
elements with different moduli never fails; every operation returns an element
carrying the left operand's modulus, and prime-field addition combines the two
underlying values and reduces by the left modulus alone. -/
theorem cross_modulus_ops_use_left_modulus (a b : Fq) (s t : FieldExtBase)
    (hab : a.Q ≠ b.Q) (hst : s.Q ≠ t.Q) :
    (Fq.add a b).Q = a.Q ∧ Fq.add a b = Fq.new a.Q (a.val + b.val) ∧
    (Fq.sub a b).Q = a.Q ∧ (Fq.mul a b).Q = a.Q ∧ (Fq.div a b).Q = a.Q ∧
    (FieldExtBase.addSame s t).Q = s.Q ∧ (FieldExtBase.mulEq s t).Q = s.Q :=
  ⟨rfl, rfl, rfl, rfl, rfl, rfl, rfl⟩

/-- Witness for the amended C1 at moduli 13 and 17. -/
theorem cross_modulus_ops_use_left_modulus_witness :
    (Fq.add (Fq.new 13 5) (Fq.new 17 10)).Q = 13 :=
  (cross_modulus_ops_use_left_modulus (Fq.new 13 5) (Fq.new 17 10)
    (Fq2.ofInts 13 1 2) (Fq2.ofInts 17 3 4) (by decide) (by decide)).1

/-- Claim C2 (behaviour at the failing input): inverting the zero element of
any positive modulus does not fail — the Euclid loop exits with Bezout
coefficient 0, so the zero element itself is returned. -/
theorem fq_invert_zero_returns_zero (Q : Int) (hQ : 0 < Q) :
    Fq.invert (Fq.new Q 0) = Fq.new Q 0 := by
  have hz : ((0 : Int) % Q).toNat = 0 := by
    rw [Int.zero_emod]; rfl
  show Fq.new Q (xgcdLoop Q.toNat ((0 : Int) % Q).toNat 1 0 0 1).2.1 = Fq.new Q 0
  rw [hz]
  have hQnz : Q.toNat ≠ 0 := by omega
  rw [xgcdLoop, if_neg hQnz]
  rw [Nat.zero_mod, Nat.zero_div]
  rw [xgcdLoop]
  simp

/-- Witness for C2 at the spec's concrete vector, modulus 13. -/
theorem fq_invert_zero_returns_zero_witness :
    Fq.invert (Fq.new 13 0) = Fq.new 13 0 :=
  fq_invert_zero_returns_zero 13 (by norm_num)

/-- Construction always produces a canonical value for a positive modulus. -/
lemma new_canonical (Q x : Int) (hQ : 0 < Q) : Fq.canonical (Fq.new Q x) :=
  ⟨hQ, Int.emod_nonneg x (ne_of_gt hQ), Int.emod_lt_of_pos x hQ⟩

/-- Square-and-multiply preserves canonicity. -/
lemma pow_canonical : ∀ (e : Nat) (a : Fq), Fq.canonical a → Fq.canonical (Fq.pow a e) := by
  intro e
  induction e using Nat.strong_induction_on with
  | _ e ih =>
    intro a ha
    rw [Fq.pow]
    by_cases h0 : e = 0
    · rw [if_pos h0]; exact new_canonical a.Q 1 ha.1
    · rw [if_neg h0]
      by_cases h1 : e = 1
      · rw [if_pos h1]; exact ha
      · rw [if_neg h1]
        have hrec : Fq.canonical (Fq.pow (Fq.mul a a) (e / 2)) :=
          ih (e / 2) (by omega) _ (new_canonical _ _ ha.1)
        by_cases h2 : e % 2 = 0
        · rw [if_pos h2]; exact hrec
        · rw [if_neg h2]; exact new_canonical _ _ hrec.1

/-- Claim C7: construction from any integer over a positive modulus yields a
value in `[0, modulus)`, and every arithmetic operation on canonical elements
yields a canonical element. -/
theorem fq_ops_canonical (Q x : Int) (a b : Fq) (e : Nat) (hQ : 0 < Q)
    (ha : Fq.canonical a) (hb : Fq.canonical b) :
    Fq.canonical (Fq.new Q x) ∧ Fq.canonical (Fq.neg a) ∧
    Fq.canonical (Fq.add a b) ∧ Fq.canonical (Fq.sub a b) ∧
    Fq.canonical (Fq.mul a b) ∧ Fq.canonical (Fq.pow a e) ∧
    Fq.canonical (Fq.invert a) ∧ Fq.canonical (Fq.div a b) :=
  ⟨new_canonical Q x hQ, new_canonical _ _ ha.1, new_canonical _ _ ha.1,
   new_canonical _ _ ha.1, new_canonical _ _ ha.1, pow_canonical e a ha,
   new_canonical _ _ ha.1, new_canonical _ _ ha.1⟩

/-- Witness for C7 at modulus 13 with a negative construction argument. -/
theorem fq_ops_canonical_witness : Fq.canonical (Fq.new 13 (-5)) :=
  (fq_ops_canonical 13 (-5) (Fq.new 13 5) (Fq.new 13 7) 3 (by norm_num)
    (new_canonical 13 5 (by norm_num)) (new_canonical 13 7 (by norm_num))).1

/-- Claim C9: the square-and-multiply recursion of `Fq.__pow__` is total (it
is a terminating recursion on the exponent) and satisfies exactly the claimed
equations: a dedicated base case returns one at exponent 0, exponent 1 returns
the element itself, an even exponent recurses on the square with half the
exponent, and an odd exponent does likewise and multiplies by the element
once. -/
theorem fq_pow_equations (a : Fq) (e : Nat) :
    Fq.pow a 0 = Fq.new a.Q 1 ∧
    Fq.pow a 1 = a ∧
    (2 ≤ e → e % 2 = 0 → Fq.pow a e = Fq.pow (Fq.mul a a) (e / 2)) ∧
    (2 ≤ e → e % 2 = 1 → Fq.pow a e = Fq.mul (Fq.pow (Fq.mul a a) (e / 2)) a) := by
  refine ⟨?_, ?_, ?_, ?_⟩
  · rw [Fq.pow]; simp
  · rw [Fq.pow]; norm_num
  · intro h2 hev
    rw [Fq.pow, if_neg (by omega), if_neg (by omega), if_pos hev]
  · intro h2 hodd
    rw [Fq.pow, if_neg (by omega), if_neg (by omega), if_neg (by omega)]

/-- Witness for C9 at exponents 6 and 7. -/
theorem fq_pow_equations_witness :
    Fq.pow (Fq.new 13 2) 6 = Fq.pow (Fq.mul (Fq.new 13 2) (Fq.new 13 2)) 3 :=
  (fq_pow_equations (Fq.new 13 2) 6).2.2.1 (by norm_num) (by norm_num)

/-- Claim C10: comparing a prime-field element with a plain integer is true
exactly when the integer equals the element's underlying canonical value; the
modulus attribute plays no role, so elements of different moduli with the same
canonical value compare identically against every integer. -/
theorem fq_eq_int_residue (s : Fq) (n : Int) :
    (Fq.eqInt s n = true ↔ n = s.val) ∧
    (∀ t : Fq, t.val = s.val → Fq.eqInt t n = Fq.eqInt s n) := by
  constructor
  · rw [Fq.eqInt, beq_iff_eq]
    exact eq_comm
  · intro t ht
    rw [Fq.eqInt, Fq.eqInt, ht]

/-- Witness for C10: moduli 17 and 13, same canonical value 5. -/
theorem fq_eq_int_residue_witness :
    Fq.eqInt (Fq.new 17 5) 3 = Fq.eqInt (Fq.new 13 5) 3 :=
  (fq_eq_int_residue (Fq.new 13 5) 3).2 (Fq.new 17 5) (by decide)

/-- Equal-degree multiplication of two-coefficient elements, in closed form:
the generic convolution at `embedding = 2` gives
`(x*z + y*w*root, x*w + y*z)`. -/
lemma mulEq_pair (Q tQ : Int) (temb : Nat) (root troot x y z w : Fq)
    (hx : x.Q = Q) (hy : y.Q = Q) :
    FieldExtBase.mulEq ⟨Q, 2, root, [x, y]⟩ ⟨tQ, temb, troot, [z, w]⟩
      = ⟨Q, 2, root, [Fq.new Q (x.val * z.val + y.val * w.val * root.val),
                      Fq.new Q (x.val * w.val + y.val * z.val)]⟩ := by
  have h := mulEq_coeffs ⟨Q, 2, root, [x, y]⟩ ⟨tQ, temb, troot, [z, w]⟩
    (by norm_num) rfl (by
      intro c hc
      rcases List.mem_cons.mp hc with h1 | h1
      · rw [h1]; exact hx
      · rw [List.mem_singleton.mp h1]; exact hy)
  have hshape : FieldExtBase.mulEq ⟨Q, 2, root, [x, y]⟩ ⟨tQ, temb, troot, [z, w]⟩
      = ⟨Q, 2, root,
          (FieldExtBase.mulEq ⟨Q, 2, root, [x, y]⟩
            ⟨tQ, temb, troot, [z, w]⟩).coeffs⟩ := rfl
  rw [hshape, h]
  refine congrArg (FieldExtBase.mk Q 2 root) ?_
  show (List.range 2).map _ = _
  rw [show List.range 2 = [0, 1] from rfl]
  rw [List.map_cons, List.map_cons, List.map_nil]
  refine congrArg₂ (fun u v => [u, v]) ?_ ?_
  · refine congrArg (Fq.new Q) ?_
    show mulCoeff 2 root.val [x, y] [z, w] 0 = _
    simp [mulCoeff, Finset.sum_range_succ, mulTerm, stepTerm]
  · refine congrArg (Fq.new Q) ?_
    show mulCoeff 2 root.val [x, y] [z, w] 1 = _
    simp [mulCoeff, Finset.sum_range_succ, mulTerm, stepTerm]

/-- `u % Q` is congruent to `u` modulo `Q`. -/
lemma emod_modEq (Q u : Int) : Int.ModEq Q (u % Q) u :=
  Int.emod_emod_of_dvd u dvd_rfl

/-- Claim C5: in the equal-extension branch of `FieldExtBase.__mul__`, result
coefficient `k` accumulates every product of the `i`-th left coefficient with
the `j`-th right coefficient for which `(i + j) % embedding = k`, the term
being additionally multiplied by `root` whenever `i + j ≥ embedding`;
consequently, for the quadratic extension with `root = −1`,
`(a + b·i)(c + d·i) = (a·c − b·d) + (a·d + b·c)·i`. -/
theorem mulEq_convolution :
    (∀ (s t : FieldExtBase), 0 < s.embedding → s.coeffs.length = s.embedding →
      (∀ c ∈ s.coeffs, c.Q = s.Q) →
      (s.mulEq t).coeffs = (List.range s.embedding).map
        (fun k => Fq.new s.Q (mulCoeff s.embedding s.root.val s.coeffs t.coeffs k))) ∧
    (∀ (Q a b c d : Int),
      FieldExtBase.mulEq (Fq2.ofInts Q a b) (Fq2.ofInts Q c d)
        = ⟨Q, 2, Fq.new Q (-1),
            [Fq.new Q (a * c - b * d), Fq.new Q (a * d + b * c)]⟩) := by
  constructor
  · exact fun s t hemb hs hQ => mulEq_coeffs s t hemb hs hQ
  · intro Q a b c d
    rw [Fq2.ofInts, Fq2.ofInts,
      mulEq_pair Q Q 2 (Fq.new Q (-1)) (Fq.new Q (-1)) (Fq.new Q a) (Fq.new Q b)
        (Fq.new Q c) (Fq.new Q d) rfl rfl]
    refine congrArg (FieldExtBase.mk Q 2 (Fq.new Q (-1))) ?_
    refine congrArg₂ (fun u v => [u, v]) ?_ ?_
    · show Fq.new Q (a % Q * (c % Q) + b % Q * (d % Q) * ((-1) % Q)) = Fq.new Q (a * c - b * d)
      rw [Fq.new, Fq.new]
      refine congrArg (Fq.mk Q) ?_
      have hcong : Int.ModEq Q (a % Q * (c % Q) + b % Q * (d % Q) * ((-1) % Q))
          (a * c + b * d * (-1)) :=
        ((emod_modEq Q a).mul (emod_modEq Q c)).add
          (((emod_modEq Q b).mul (emod_modEq Q d)).mul (emod_modEq Q (-1)))
      rw [show a * c + b * d * (-1) = a * c - b * d from by ring] at hcong
      exact hcong
    · show Fq.new Q (a % Q * (d % Q) + b % Q * (c % Q)) = Fq.new Q (a * d + b * c)
      rw [Fq.new, Fq.new]
      refine congrArg (Fq.mk Q) ?_
      exact ((emod_modEq Q a).mul (emod_modEq Q d)).add
        ((emod_modEq Q b).mul (emod_modEq Q c))

/-- Witness for C5 at `(3 + 4i)(1 + 2i)` over modulus 13, exercising both the
general coefficient formula (with its hypotheses discharged concretely) and
the quadratic consequence. -/
theorem mulEq_convolution_witness :
    (((Fq2.ofInts 13 3 4).mulEq (Fq2.ofInts 13 1 2)).coeffs
      = (List.range (Fq2.ofInts 13 3 4).embedding).map
          (fun k => Fq.new (Fq2.ofInts 13 3 4).Q
            (mulCoeff (Fq2.ofInts 13 3 4).embedding (Fq2.ofInts 13 3 4).root.val
              (Fq2.ofInts 13 3 4).coeffs (Fq2.ofInts 13 1 2).coeffs k))) ∧
    FieldExtBase.mulEq (Fq2.ofInts 13 3 4) (Fq2.ofInts 13 1 2)
      = ⟨13, 2, Fq.new 13 (-1),
          [Fq.new 13 (3 * 1 - 4 * 2), Fq.new 13 (3 * 2 + 4 * 1)]⟩ :=
  ⟨mulEq_convolution.1 (Fq2.ofInts 13 3 4) (Fq2.ofInts 13 1 2) (by decide) rfl
      (by decide),
    mulEq_convolution.2 13 3 4 1 2⟩

/-- Claim C4 counterexample. -/
theorem fq2_invert_zero_norm_breaks :
    Fq2.invert (Fq2.ofInts 13 1 5) = some (Fq2.ofInts 13 0 0) ∧
    FieldExtBase.beq (FieldExtBase.mulEq (Fq2.ofInts 13 1 5) (Fq2.ofInts 13 0 0))
      (Fq2.one 13) = false := by
  constructor
  · simp [Fq2.invert, Fq2.ofInts, Fq.invert, xgcdLoop, Fq.new, Fq.add, Fq.mul, Fq.neg]
  · decide

/-- Claim C4 (amended). -/
theorem fq2_invert_closed_form (p : Nat) (hp : p.Prime) (a b : Int) :
    (∀ (s : FieldExtBase) (x y : Fq), s.coeffs = [x, y] →
      Fq2.invert s = some ⟨s.Q, 2, Fq.new s.Q (-1),
        [Fq.mul x (Fq.invert (Fq.add (Fq.mul x x) (Fq.mul y y))),
         Fq.mul (Fq.neg y) (Fq.invert (Fq.add (Fq.mul x x) (Fq.mul y y)))]⟩) ∧
    ((a * a + b * b) % (p : Int) ≠ 0 →
      ∃ t, Fq2.invert (Fq2.ofInts (p : Int) a b) = some t ∧
        FieldExtBase.beq (FieldExtBase.mulEq (Fq2.ofInts (p : Int) a b) t)
          (Fq2.one (p : Int)) = true) := by
  constructor
  · intro s x y h
    obtain ⟨Q, emb, root, coeffs⟩ := s
    simp only at h
    subst h
    rfl
  · intro hN
    set Q : Int := (p : Int) with hQdef
    have hQpos : 0 < Q := by rw [hQdef]; exact_mod_cast hp.pos
    set x : Fq := Fq.new Q a with hxdef
    set y : Fq := Fq.new Q b with hydef
    set N : Fq := Fq.add (Fq.mul x x) (Fq.mul y y) with hNdef
    set f : Fq := Fq.invert N with hfdef
    refine ⟨⟨Q, 2, Fq.new Q (-1), [Fq.mul x f, Fq.mul (Fq.neg y) f]⟩, rfl, ?_⟩
    have hNval : N.val = (a * a + b * b) % Q := by
      show ((a % Q) * (a % Q) % Q + (b % Q) * (b % Q) % Q) % Q = _
      exact ((emod_modEq Q _).trans ((emod_modEq Q a).mul (emod_modEq Q a))).add
        ((emod_modEq Q _).trans ((emod_modEq Q b).mul (emod_modEq Q b)))
    have hNnz : N.val ≠ 0 := by rw [hNval]; exact hN
    have hN0 : 0 ≤ N.val := Int.emod_nonneg _ (ne_of_gt hQpos)
    have hNlt : N.val < N.Q := Int.emod_lt_of_pos _ hQpos
    have hinv : Int.ModEq Q (N.val * f.val) 1 :=
      invert_mul_emod p hp N rfl hN0 hNlt hNnz
    have hS : Int.ModEq Q N.val (x.val * x.val + y.val * y.val) := by
      show Int.ModEq Q ((x.val * x.val % Q + y.val * y.val % Q) % Q) _
      exact (emod_modEq Q _).trans ((emod_modEq Q _).add (emod_modEq Q _))
    have hc0 : (x.val * (Fq.mul x f).val
        + y.val * (Fq.mul (Fq.neg y) f).val * (Fq.new Q (-1)).val) % Q = 1 % Q := by
      show (x.val * (x.val * f.val % Q)
        + y.val * ((-y.val) % Q * f.val % Q) * ((-1) % Q)) % Q = 1 % Q
      have step1 : Int.ModEq Q
          (x.val * (x.val * f.val % Q)
            + y.val * ((-y.val) % Q * f.val % Q) * ((-1) % Q))
          (x.val * (x.val * f.val) + y.val * (-y.val * f.val) * (-1)) :=
        ((Int.ModEq.refl x.val).mul (emod_modEq Q _)).add
          (((Int.ModEq.refl y.val).mul
            ((emod_modEq Q _).trans
              ((emod_modEq Q (-y.val)).mul (Int.ModEq.refl f.val)))).mul
            (emod_modEq Q (-1)))
      have step2 : x.val * (x.val * f.val) + y.val * (-y.val * f.val) * (-1)
          = (x.val * x.val + y.val * y.val) * f.val := by ring
      refine step1.trans ?_
      rw [step2]
      exact (hS.symm.mul (Int.ModEq.refl f.val)).trans hinv
    have hc1 : (x.val * (Fq.mul (Fq.neg y) f).val
        + y.val * (Fq.mul x f).val) % Q = 0 % Q := by
      show (x.val * ((-y.val) % Q * f.val % Q)
        + y.val * (x.val * f.val % Q)) % Q = 0 % Q
      have step1 : Int.ModEq Q
          (x.val * ((-y.val) % Q * f.val % Q) + y.val * (x.val * f.val % Q))
          (x.val * (-y.val * f.val) + y.val * (x.val * f.val)) :=
        ((Int.ModEq.refl x.val).mul
          ((emod_modEq Q _).trans
            ((emod_modEq Q (-y.val)).mul (Int.ModEq.refl f.val)))).add
          ((Int.ModEq.refl y.val).mul (emod_modEq Q _))
      have step2 : x.val * (-y.val * f.val) + y.val * (x.val * f.val) = 0 := by ring
      refine step1.trans ?_
      rw [step2]
    rw [show Fq2.ofInts Q a b = ⟨Q, 2, Fq.new Q (-1), [x, y]⟩ from rfl]
    rw [mulEq_pair Q Q 2 (Fq.new Q (-1)) (Fq.new Q (-1)) x y
      (Fq.mul x f) (Fq.mul (Fq.neg y) f) rfl rfl]
    have hFq0 : Fq.new Q (x.val * (Fq.mul x f).val
        + y.val * (Fq.mul (Fq.neg y) f).val * (Fq.new Q (-1)).val) = Fq.new Q 1 := by
      rw [Fq.new, Fq.new]
      exact congrArg (Fq.mk Q) hc0
    have hFq1 : Fq.new Q (x.val * (Fq.mul (Fq.neg y) f).val
        + y.val * (Fq.mul x f).val) = Fq.new Q 0 := by
      rw [Fq.new, Fq.new]
      exact congrArg (Fq.mk Q) hc1
    rw [hFq0, hFq1]
    simp [FieldExtBase.beq, Fq2.one, Fq.beq]

/-- Witness for the amended C4. -/
theorem fq2_invert_closed_form_witness :
    ∃ t, Fq2.invert (Fq2.ofInts ((13 : Nat) : Int) 3 4) = some t ∧
      FieldExtBase.beq (FieldExtBase.mulEq (Fq2.ofInts ((13 : Nat) : Int) 3 4) t)
        (Fq2.one ((13 : Nat) : Int)) = true :=
  (fq2_invert_closed_form 13 (by norm_num) 3 4).2 (by norm_num)

/-- Claim C8 counterexample: passing three field-shaped arguments to the
quadratic constructor does not fail — the element is constructed with three
coefficients, not `embedding = 2`. -/
theorem fq2_newArgs_three_coeffs :
    Fq2.newArgs 13 [PyArg.ofFq (Fq.new 13 1), PyArg.ofFq (Fq.new 13 2),
        PyArg.ofFq (Fq.new 13 3)]
      = some [PyArg.ofFq (Fq.new 13 1), PyArg.ofFq (Fq.new 13 2),
          PyArg.ofFq (Fq.new 13 3)] := by decide

/-- Claim C8 (amended): the raw-scalar path of the constructor succeeds
exactly for two arguments (which it lifts into the basefield), fewer than two
arguments always fail, but when the first two arguments are field-shaped the
arity check is skipped entirely and the argument tuple of any length is
accepted unchanged. -/
theorem fq2_newArgs_arity :
    (∀ (Q : Int) (args : List PyArg), (∀ a ∈ args, a.hasExtAttr = false) →
      ((Fq2.newArgs Q args).isSome = true ↔ args.length = 2)) ∧
    (∀ (Q : Int) (args : List PyArg), args.length < 2 → Fq2.newArgs Q args = none) ∧
    (∀ (Q : Int) (a0 a1 : PyArg) (rest : List PyArg),
      a0.hasExtAttr = true → a1.hasExtAttr = true →
      Fq2.newArgs Q (a0 :: a1 :: rest) = some (a0 :: a1 :: rest)) ∧
    (∀ (Q a b : Int),
      Fq2.newArgs Q [PyArg.ofInt a, PyArg.ofInt b]
        = some [PyArg.ofFq (Fq.new Q a), PyArg.ofFq (Fq.new Q b)]) := by
  refine ⟨?_, ?_, ?_, ?_⟩
  · intro Q args hall
    match args with
    | [] => simp [Fq2.newArgs]
    | [a0] => simp [Fq2.newArgs]
    | a0 :: a1 :: rest =>
      have h0 : a0.hasExtAttr = false := hall a0 (by simp)
      simp only [Fq2.newArgs, h0, Bool.false_and, Bool.false_eq_true, if_false]
      by_cases hlen : (a0 :: a1 :: rest).length = 2
      · simp [hlen]
      · simp [hlen]
  · intro Q args hlen
    match args with
    | [] => rfl
    | [a0] => rfl
  · intro Q a0 a1 rest h0 h1
    simp only [Fq2.newArgs, h0, h1, Bool.and_self, if_true]
  · intro Q a b
    rfl

/-- Witness for the amended C8: a single raw argument fails. -/
theorem fq2_newArgs_arity_witness :
    Fq2.newArgs 13 [PyArg.ofInt 1] = none :=
  fq2_newArgs_arity.2.1 13 [PyArg.ofInt 1] (by norm_num)

/-- Reading a reversed list at `m` reads the original at `length - 1 - m`. -/
lemma getD_reverse (u : List Fq) (m : Nat) (h : m < u.length) :
    u.reverse.getD m (Fq.zero 0) = u.getD (u.length - 1 - m) (Fq.zero 0) := by
  rw [List.getD_eq_getElem u.reverse (Fq.zero 0) (by simpa using h),
    List.getD_eq_getElem u (Fq.zero 0) (by omega)]
  rw [List.getElem_reverse]

/-- Python `<` on same-length tuples of same-modulus `Fq` components: the
first index (scanning from the head) whose values differ decides. -/
lemma pyFqListLt_firstDiff (Q : Int) :
    ∀ (u v : List Fq), u.length = v.length →
      (∀ c ∈ u, c.Q = Q) → (∀ c ∈ v, c.Q = Q) →
      (pyFqListLt u v = true ↔ ∃ m, m < u.length ∧
        (u.getD m (Fq.zero 0)).val < (v.getD m (Fq.zero 0)).val ∧
        ∀ k, k < m → (u.getD k (Fq.zero 0)).val = (v.getD k (Fq.zero 0)).val) := by
  intro u
  induction u with
  | nil =>
    intro v hlen _ _
    have hv : v = [] := List.eq_nil_of_length_eq_zero hlen.symm
    subst hv
    show false = true ↔ _
    simp
  | cons xh xt ih =>
    intro v hlen hu hv
    obtain ⟨yh, yt, rfl⟩ : ∃ yh yt, v = yh :: yt := by
      cases v with
      | nil => simp at hlen
      | cons a l => exact ⟨a, l, rfl⟩
    have hxQ : xh.Q = Q := hu xh (List.mem_cons_self _ _)
    have hyQ : yh.Q = Q := hv yh (List.mem_cons_self _ _)
    show (if xh.val = yh.val ∧ xh.Q = yh.Q then pyFqListLt xt yt
        else decide (xh.val < yh.val)) = true ↔ _
    by_cases hval : xh.val = yh.val
    · rw [if_pos ⟨hval, by rw [hxQ, hyQ]⟩]
      rw [ih yt (by simpa using hlen) (fun c hc => hu c (List.mem_cons_of_mem _ hc))
        (fun c hc => hv c (List.mem_cons_of_mem _ hc))]
      constructor
      · rintro ⟨m, hm, hlt, hpre⟩
        refine ⟨m + 1, by simpa using Nat.succ_lt_succ hm, by simpa using hlt, ?_⟩
        intro k hk
        cases k with
        | zero => simpa using hval
        | succ k => simpa using hpre k (by omega)
      · rintro ⟨m, hm, hlt, hpre⟩
        cases m with
        | zero =>
          exfalso
          rw [List.getD_cons_zero, List.getD_cons_zero, hval] at hlt
          exact lt_irrefl _ hlt
        | succ m =>
          refine ⟨m, by simpa using hm, by simpa using hlt, ?_⟩
          intro k hk
          have := hpre (k + 1) (by omega)
          simpa using this
    · rw [if_neg (fun hc => hval hc.1)]
      rw [decide_eq_true_iff]
      constructor
      · intro hlt
        exact ⟨0, by simp, by simpa using hlt, fun k hk => absurd hk (Nat.not_lt_zero k)⟩
      · rintro ⟨m, hm, hlt, hpre⟩
        cases m with
        | zero => simpa using hlt
        | succ m =>
          exfalso
          exact hval (by simpa using hpre 0 (Nat.succ_pos m))

/-- Claim C6 (amended): extension `less_than` compares coefficient tuples in
reverse index order, and the HIGHEST unequal index decides. -/
theorem extLt_reverse_order :
    (∀ (Q : Int) (s t : FieldExtBase) (n : Nat), s.coeffs.length = n →
      t.coeffs.length = n →
      (∀ c ∈ s.coeffs, c.Q = Q) → (∀ c ∈ t.coeffs, c.Q = Q) →
      (FieldExtBase.lt s t = true ↔ ∃ m, m < n ∧
        (s.coeffs.getD m (Fq.zero 0)).val < (t.coeffs.getD m (Fq.zero 0)).val ∧
        ∀ k, m < k → k < n →
          (s.coeffs.getD k (Fq.zero 0)).val = (t.coeffs.getD k (Fq.zero 0)).val)) ∧
    FieldExtBase.lt (Fq2.ofInts 13 5 1) (Fq2.ofInts 13 1 2) = true := by
  constructor
  · intro Q s t n hs ht hsQ htQ
    show pyFqListLt s.coeffs.reverse t.coeffs.reverse = true ↔ _
    rw [pyFqListLt_firstDiff Q s.coeffs.reverse t.coeffs.reverse
      (by rw [List.length_reverse, List.length_reverse, hs, ht])
      (fun c hc => hsQ c (List.mem_reverse.mp hc))
      (fun c hc => htQ c (List.mem_reverse.mp hc))]
    rw [List.length_reverse, hs]
    constructor
    · rintro ⟨m, hm, hlt, hpre⟩
      refine ⟨n - 1 - m, by omega, ?_, ?_⟩
      · rw [getD_reverse s.coeffs m (by omega), hs] at hlt
        rw [getD_reverse t.coeffs m (by omega), ht] at hlt
        exact hlt
      · intro k hk1 hk2
        have hk' : n - 1 - k < m := by omega
        have := hpre (n - 1 - k) hk'
        rw [getD_reverse s.coeffs (n - 1 - k) (by omega), hs] at this
        rw [getD_reverse t.coeffs (n - 1 - k) (by omega), ht] at this
        rw [show n - 1 - (n - 1 - k) = k from by omega] at this
        exact this
    · rintro ⟨m, hm, hlt, hpost⟩
      refine ⟨n - 1 - m, by omega, ?_, ?_⟩
      · rw [getD_reverse s.coeffs (n - 1 - m) (by omega), hs,
          getD_reverse t.coeffs (n - 1 - m) (by omega), ht,
          show n - 1 - (n - 1 - m) = m from by omega]
        exact hlt
      · intro k hk
        rw [getD_reverse s.coeffs k (by omega), hs,
          getD_reverse t.coeffs k (by omega), ht]
        exact hpost (n - 1 - k) (by omega) (by omega)
  · decide

/-- Claim C6 counterexample: the spec's concrete ordering vector is reversed —
`(1 + 2i)` is NOT less than `(5 + 1i)` under the reversed-tuple rule, because
the index-1 coefficients 2 and 1 are compared first and 2 > 1. -/
theorem extLt_spec_vector_false :
    FieldExtBase.lt (Fq2.ofInts 13 1 2) (Fq2.ofInts 13 5 1) = false := by decide

/-- Witness for the amended C6: instantiates the characterization for the
corrected concrete vector. -/
theorem extLt_reverse_order_witness :
    FieldExtBase.lt (Fq2.ofInts 13 5 1) (Fq2.ofInts 13 1 2) = true ↔ ∃ m, m < 2 ∧
      ((Fq2.ofInts 13 5 1).coeffs.getD m (Fq.zero 0)).val
        < ((Fq2.ofInts 13 1 2).coeffs.getD m (Fq.zero 0)).val ∧
      ∀ k, m < k → k < 2 →
        ((Fq2.ofInts 13 5 1).coeffs.getD k (Fq.zero 0)).val
          = ((Fq2.ofInts 13 1 2).coeffs.getD k (Fq.zero 0)).val :=
  extLt_reverse_order.1 13 (Fq2.ofInts 13 5 1) (Fq2.ofInts 13 1 2) 2 rfl rfl
    (by decide) (by decide)
